import Mathlib

/-
Verification of the MLP neural-network engine (mlpnet.py).

The module is embedded shallowly over ℚ: numpy float arrays become
`List ℚ` / `List (List ℚ)` (row major), numpy elementwise and dot
operations become the list operations below, and every mutation of an
array is made explicit by returning the new value.  Activation
functions, their derivative functions and `np.log` are arbitrary Python
callables applied elementwise, so they are modelled as parameters of
type `ℚ → ℚ`.  Exceptions are modelled with `Except MLPErr`, the error
constructors following the specification's taxonomy (the module itself
raises `MLPError` / `ValueError` at the corresponding sites).
-/

namespace MLP

/-- A numpy 2-D array, row major. -/
abbrev Mat : Type := List (List ℚ)

/-- Dot product of two vectors (`np.dot` on 1-D arrays). -/
def dotL (xs ys : List ℚ) : ℚ := (List.zipWith (fun a b => a * b) xs ys).sum

/-- Matrix--vector product `np.dot(W, v)`. -/
def matVec (W : Mat) (v : List ℚ) : List ℚ := W.map (fun row => dotL row v)

/-- The product `A · Bᵗ` (`np.dot(A, B.T)`): entry (i, k) is the dot
product of row i of `A` with row k of `B`. -/
def matMulT (A B : Mat) : Mat := A.map (fun row => B.map (fun brow => dotL row brow))

/-- The product `A · B` (`np.dot(A, B)` on 2-D arrays). -/
def matMul (A B : Mat) : Mat := matMulT A B.transpose

/-- Elementwise difference of two matrices (`A - B`). -/
def matSub (A B : Mat) : Mat := List.zipWith (fun r s => List.zipWith (fun a b => a - b) r s) A B

/-- Elementwise sum of two matrices (`A + B`). -/
def matAdd (A B : Mat) : Mat := List.zipWith (fun r s => List.zipWith (fun a b => a + b) r s) A B

/-- Elementwise (Hadamard) product of two matrices (`A * B`). -/
def hadamard (A B : Mat) : Mat := List.zipWith (fun r s => List.zipWith (fun a b => a * b) r s) A B

/-- Multiply every entry by a scalar (`lam * A`). -/
def matScale (c : ℚ) (A : Mat) : Mat := A.map (fun r => r.map (fun a => c * a))

/-- Divide every entry by a scalar (`A / m`). -/
def matDivC (A : Mat) (m : ℚ) : Mat := A.map (fun r => r.map (fun a => a / m))

/-- Apply a scalar function elementwise (a vectorized activation). -/
def actMap (f : ℚ → ℚ) (A : Mat) : Mat := A.map (fun r => r.map f)

/-- Sum of the squares of all entries (`np.sum(A**2)`). -/
def matSumSq (A : Mat) : ℚ := (A.map (fun r => (r.map (fun a => a * a)).sum)).sum

/-- Sum of all entries (`np.sum(A)`). -/
def matSum (A : Mat) : ℚ := (A.map (fun r => r.sum)).sum

/-- Elementwise `1.0 - A`. -/
def oneSub (A : Mat) : Mat := A.map (fun r => r.map (fun a => 1 - a))

/-- Prepend a column of ones (`np.concatenate((np.ones((m, 1)), A), axis=1)`). -/
def addBias (A : Mat) : Mat := A.map (fun r => 1 :: r)

/-- Drop the first column (`A[:, 1:]`). -/
def dropBiasCol (A : Mat) : Mat := A.map (fun r => r.drop 1)

/-- Replace the first column by zeros
(`np.concatenate((np.zeros((k, 1)), A[:, 1:]), axis=1)`). -/
def zeroBiasCol (A : Mat) : Mat := A.map (fun r => 0 :: r.drop 1)

/-- Error taxonomy of the specification.  `configurationError` models the
`MLPError` raised by `calculate_outputs` on the input layer,
`validationError` the `ValueError` raised by `split` on bad ratios, and
`shapeError` the error raised by `get_theta` on a supplied flat weight
vector of the wrong length. -/
inductive MLPErr : Type where
  | configurationError : MLPErr
  | validationError : MLPErr
  | shapeError : MLPErr
deriving DecidableEq

/-- Return value of a cost function: either the cost alone (`jac=False`)
or the `(cost, gradient)` tuple (`jac=True`). -/
inductive CostResult : Type where
  | costOnly : ℚ → CostResult
  | withGrad : ℚ → List ℚ → CostResult
deriving DecidableEq

/-- The cost component: the float itself, or element 0 of the tuple
(mirrors `if isinstance(loss, tuple): loss = loss[0]`). -/
def costOf : CostResult → ℚ
  | .costOnly J => J
  | .withGrad J _ => J

/-- The gradient component of a cost-function result (empty when only
the cost was returned). -/
def gradOf : CostResult → List ℚ
  | .costOnly _ => []
  | .withGrad _ g => g

/-- A numpy array that may be 1-D or 2-D, as passed to `predict`. -/
inductive PyArray : Type where
  | one : List ℚ → PyArray
  | two : Mat → PyArray
deriving DecidableEq

/-- Immutable configuration of an `MLPNetwork`: the layer dimensions and
the per-layer activation/derivative functions.  The Python object stores
`act_funcs = [None] + list`; here the lists hold only the entries for
layers `1 .. n_layers-1`. -/
structure MLPNetwork : Type where
  ndim : List ℕ
  actFuncs : List (ℚ → ℚ)
  gradFuncs : List (ℚ → ℚ)

/-- Mutable state of an `MLPNetwork`: the flat weight vector and the
per-layer `outputs` arrays (the layer views alias `weights`, so the flat
vector is the sole owned storage). -/
structure NetState : Type where
  weights : List ℚ
  layerOutputs : List (List ℚ)
deriving DecidableEq

/-- Shape `(n_outputs - 1, previous.n_outputs)` of each non-input
layer's weight block, in layer order (`MLPNetwork.__init__`, the
slicing loop at lines 402-418). -/
def layerDims (ndim : List ℕ) : List (ℕ × ℕ) :=
  List.zipWith (fun prev cur => (cur, prev + 1)) ndim ndim.tail

/-- Total number of weights accumulated during construction
(`self.n_weights += (new_layer.n_outputs - 1)*previous.n_outputs`). -/
def n_weights (ndim : List ℕ) : ℕ := ((layerDims ndim).map (fun p => p.1 * p.2)).sum

/-- Reshape a flat vector into `r` rows of `c` entries (numpy's row-major
`shape = (r, c)` assignment on a slice). -/
def reshape : ℕ → ℕ → List ℚ → Mat
  | 0, _, _ => []
  | r + 1, c, xs => xs.take c :: reshape r c (xs.drop c)

/-- Carve a flat weight vector into the per-layer blocks, consuming
`r * c` scalars per block in layer order (the `first`/`last` slicing
loop shared by `__init__` and `get_theta`). -/
def carve : List (ℕ × ℕ) → List ℚ → List Mat
  | [], _ => []
  | (r, c) :: dims, xs => reshape r c (xs.take (r * c)) :: carve dims (xs.drop (r * c))

/-- `MLPNetwork.get_theta` (lines 468-520): the per-layer weight views,
`None` for the input layer then one block per non-input layer.  With no
argument the views into the network's own flat vector are returned; with
a supplied flat vector the same slicing is applied to it after the
length check (the `raise ValueError` at line 490 is the specification's
`ShapeError`). -/
def get_theta (net : MLPNetwork) (st : NetState) (weights : Option (List ℚ)) :
    Except MLPErr (List (Option Mat)) :=
  match weights with
  | none => .ok (none :: (carve (layerDims net.ndim) st.weights).map (fun M => some M))
  | some w =>
      if w.length ≠ n_weights net.ndim then .error .shapeError
      else .ok (none :: (carve (layerDims net.ndim) w).map (fun M => some M))

/-- Flatten a `get_theta` view list back into one flat vector,
layer-by-layer (`None` contributes nothing). -/
def flattenTheta (theta : List (Option Mat)) : List ℚ :=
  (theta.map (fun o => (o.getD []).flatten)).flatten

/-- The non-input-layer blocks of a `get_theta` result, positionally
(`theta[j]` for `j = 1 ..`). -/
def thetaMats (theta : List (Option Mat)) : List Mat :=
  (theta.drop 1).map (fun o => o.getD [])

/-- The `outputs` array of a freshly constructed `MLPLayer`
(`np.zeros(n_nodes + 1)` with `outputs[0] = 1.0`). -/
def mlpLayerInitOutputs (nNodes : ℕ) : List ℚ := 1 :: List.replicate nNodes 0

/-- `MLPLayer.calculate_outputs` (lines 257-267): writes
`outputs[1:] = act_func(np.dot(weights, input_layer.outputs))`, leaving
the bias slot `outputs[0]` untouched; on the input layer (no
`input_layer`) it raises (`ConfigurationError`).  `inputOutputs` is
`input_layer.outputs`, `none` when there is no input layer; the result
is the layer's new `outputs` array. -/
def calculate_outputs (actF : ℚ → ℚ) (weights : Mat) (inputOutputs : Option (List ℚ))
    (outputs : List ℚ) : Except MLPErr (List ℚ) :=
  match inputOutputs with
  | some ins => .ok (outputs.take 1 ++ (matVec weights ins).map actF)
  | none => .error .configurationError

/-- Shared forward pass of both cost functions (lines 566-587 and
736-758): for each non-input layer, `Z[j] = np.dot(A[j-1], theta[j].T)`
and `A[j] = act(Z[j])`, bias-augmented except on the final layer.
Returns the `(Z[j], A[j])` pairs in layer order. -/
def forwardZA : List (Mat × (ℚ → ℚ)) → Mat → List (Mat × Mat)
  | [], _ => []
  | (θ, f) :: rest, Aprev =>
      let Z := matMulT Aprev θ
      let A := if rest.isEmpty then actMap f Z else addBias (actMap f Z)
      (Z, A) :: forwardZA rest A

/-- `A[-1]`, the final activation of the forward pass (`A[0]` itself
when the network has no non-input layer). -/
def forwardLastA (θs : List Mat) (acts : List (ℚ → ℚ)) (X : Mat) : Mat :=
  ((forwardZA (θs.zip acts) (addBias X)).map (fun p => p.2)).getLastD (addBias X)

/-- Backpropagation of the error signals through the hidden layers,
identical in both cost functions (lines 659-673 and 831-845): for
`j = n_layers-2 .. 1`,
`sigma[j] = (np.dot(sigma[j+1], theta[j+1]) * grad_{j+1}(concat(ones, Z[j])))[:, 1:]`.
The three lists hold `Z[j]`, `theta[j+1]` and `grad_func[j+1]` for the
hidden layers in layer order; the recursion computes `sigma[j]` from the
head of the already-computed suffix. -/
def sigmaRec : List Mat → List Mat → List (ℚ → ℚ) → Mat → List Mat
  | Z :: Zs, θn :: θns, gn :: gns, σL =>
      let rest := sigmaRec Zs θns gns σL
      dropBiasCol (hadamard (matMul (rest.headD []) θn) (actMap gn (addBias Z))) :: rest
  | _, _, _, σL => [σL]

/-- Per-layer gradient blocks of `cost_function_log` (lines 676-688):
`delta[j] = np.dot(sigma[j].T, A[j-1])`, then
`theta_grad[j] = (delta[j] + lambda * zero_bias(theta[j])) / m`. -/
def gradBlocksLog : List Mat → List Mat → List Mat → ℚ → ℚ → List Mat
  | σ :: σs, Ap :: Aps, θ :: θt, lam, m =>
      matDivC (matAdd (matMul σ.transpose Ap) (matScale lam (zeroBiasCol θ))) m ::
        gradBlocksLog σs Aps θt lam m
  | _, _, _, _, _ => []

/-- Per-layer gradient blocks of `cost_function_mse` (lines 848-863):
`delta[j] = (sigma[j] * grad_j(Z[j])).T.dot(A[j-1])`, then
`theta_grad[j] = (delta[j] + lambda * zero_bias(theta[j])) / m`. -/
def gradBlocksMse : List Mat → List (ℚ → ℚ) → List Mat → List Mat → List Mat → ℚ → ℚ → List Mat
  | σ :: σs, g :: gs, Z :: Zs, Ap :: Aps, θ :: θt, lam, m =>
      matDivC (matAdd (matMul (hadamard σ (actMap g Z)).transpose Ap)
        (matScale lam (zeroBiasCol θ))) m :: gradBlocksMse σs gs Zs Aps θt lam m
  | _, _, _, _, _, _, _ => []

/-- Cost of `cost_function_mse` (lines 760-767):
`J = 0.5*np.sum((A[-1] - y)**2)/m`, plus, when `lambda_param != 0.0`,
one regularization term `lambda*np.sum(theta[j][:, 1:]**2)/(2.0*m)` per
non-input layer. -/
def mseJ (θs : List Mat) (acts : List (ℚ → ℚ)) (X y : Mat) (lam : ℚ) : ℚ :=
  let m : ℚ := (X.length : ℚ)
  let J0 : ℚ := 1 / 2 * matSumSq (matSub (forwardLastA θs acts X) y) / m
  if lam ≠ 0 then
    θs.foldl (fun J θ => J + lam * matSumSq (dropBiasCol θ) / (2 * m)) J0
  else J0

/-- Cost of `cost_function_log` (lines 594-601):
`J = np.sum(-y*np.log(A[-1]) - (1.0 - y)*np.log(1.0 - A[-1]))/m`, plus
the same regularization terms.  `np.log` is transcendental, so it is a
parameter `log`. -/
def logJ (log : ℚ → ℚ) (θs : List Mat) (acts : List (ℚ → ℚ)) (X y : Mat) (lam : ℚ) : ℚ :=
  let m : ℚ := (X.length : ℚ)
  let Al := forwardLastA θs acts X
  let J0 : ℚ :=
    matSum (matSub (matScale (-1) (hadamard y (actMap log Al)))
      (hadamard (oneSub y) (actMap log (oneSub Al)))) / m
  if lam ≠ 0 then
    θs.foldl (fun J θ => J + lam * matSumSq (dropBiasCol θ) / (2 * m)) J0
  else J0

/-- Flat gradient of `cost_function_mse` (lines 776-865): the blocks of
`gradBlocksMse`, written through views carved from the flat `grad` array
in the identical layer order used for `weights` — functionally, their
layer-by-layer flattening.  `sigma[-1] = A[-1] - y` (line 816). -/
def mseGradFlat (θs : List Mat) (acts grads : List (ℚ → ℚ)) (X y : Mat) (lam : ℚ) : List ℚ :=
  let m : ℚ := (X.length : ℚ)
  let A0 := addBias X
  let za := forwardZA (θs.zip acts) A0
  let Zs := za.map (fun p => p.1)
  let As := A0 :: za.map (fun p => p.2)
  let σlast := matSub ((za.map (fun p => p.2)).getLastD A0) y
  let σs := sigmaRec Zs.dropLast θs.tail grads.tail σlast
  ((gradBlocksMse σs grads Zs As.dropLast θs lam m).map List.flatten).flatten

/-- Flat gradient of `cost_function_log` (lines 610-690): identical
reverse pass except for the delta stage (`gradBlocksLog`).
`sigma[-1] = A[-1] - y` (line 649). -/
def logGradFlat (θs : List Mat) (acts grads : List (ℚ → ℚ)) (X y : Mat) (lam : ℚ) : List ℚ :=
  let m : ℚ := (X.length : ℚ)
  let A0 := addBias X
  let za := forwardZA (θs.zip acts) A0
  let Zs := za.map (fun p => p.1)
  let As := A0 :: za.map (fun p => p.2)
  let σlast := matSub ((za.map (fun p => p.2)).getLastD A0) y
  let σs := sigmaRec Zs.dropLast θs.tail grads.tail σlast
  ((gradBlocksLog σs As.dropLast θs lam m).map List.flatten).flatten

/-- `MLPNetwork.cost_function_mse` (lines 693-866) given the per-layer
weight blocks: the cost, and when `jac` the flat gradient as well. -/
def cost_function_mse_theta (θs : List Mat) (acts grads : List (ℚ → ℚ)) (X y : Mat)
    (lam : ℚ) (jac : Bool) : CostResult :=
  if !jac then .costOnly (mseJ θs acts X y lam)
  else .withGrad (mseJ θs acts X y lam) (mseGradFlat θs acts grads X y lam)

/-- `MLPNetwork.cost_function_log` (lines 522-690) given the per-layer
weight blocks. -/
def cost_function_log_theta (log : ℚ → ℚ) (θs : List Mat) (acts grads : List (ℚ → ℚ))
    (X y : Mat) (lam : ℚ) (jac : Bool) : CostResult :=
  if !jac then .costOnly (logJ log θs acts X y lam)
  else .withGrad (logJ log θs acts X y lam) (logGradFlat θs acts grads X y lam)

/-- `MLPNetwork.cost_function_mse` including the `get_theta` step. -/
def cost_function_mse (net : MLPNetwork) (st : NetState) (X y : Mat)
    (weights : Option (List ℚ)) (lam : ℚ) (jac : Bool) : Except MLPErr CostResult :=
  match get_theta net st weights with
  | .error e => .error e
  | .ok θ => .ok (cost_function_mse_theta (thetaMats θ) net.actFuncs net.gradFuncs X y lam jac)

/-- `MLPNetwork.cost_function_log` including the `get_theta` step. -/
def cost_function_log (log : ℚ → ℚ) (net : MLPNetwork) (st : NetState) (X y : Mat)
    (weights : Option (List ℚ)) (lam : ℚ) (jac : Bool) : Except MLPErr CostResult :=
  match get_theta net st weights with
  | .error e => .error e
  | .ok θ =>
      .ok (cost_function_log_theta log (thetaMats θ) net.actFuncs net.gradFuncs X y lam jac)

/-- Gradient blocks as the specification states them, shared between the
two objective kinds and parameterized only by whether the delta stage
multiplies in the activation derivative: for each layer `j`,
`delta[j] = sigma[j]ᵗ · A[j-1]` (logistic) or
`delta[j] = (sigma[j] ⊙ gradient_j(Z[j]))ᵗ · A[j-1]` (mean-squared-error),
then `gradient[j] = (delta[j] + lambda · zero_bias_column(weights[j])) / m`.
This definition follows the specification's words; the claim theorems
compare it with the duplicated per-kind code. -/
def gradBlocksSpec (mseKind : Bool) :
    List Mat → List (ℚ → ℚ) → List Mat → List Mat → List Mat → ℚ → ℚ → List Mat
  | σ :: σs, g :: gs, Z :: Zs, Ap :: Aps, θ :: θt, lam, m =>
      (matDivC (matAdd
          (if mseKind then matMul (hadamard σ (actMap g Z)).transpose Ap
           else matMul σ.transpose Ap)
          (matScale lam (zeroBiasCol θ))) m) ::
        gradBlocksSpec mseKind σs gs Zs Aps θt lam m
  | _, _, _, _, _, _, _ => []

/-- The specification's reverse pass, one shared pipeline: initialize
`sigma[L-1] = A[L-1] - y`, back-propagate through the hidden layers, then
assemble the `gradBlocksSpec` blocks into a flat vector in the weight
layout.  Follows the specification's words. -/
def specGradFlat (mseKind : Bool) (θs : List Mat) (acts grads : List (ℚ → ℚ))
    (X y : Mat) (lam : ℚ) : List ℚ :=
  let m : ℚ := (X.length : ℚ)
  let A0 := addBias X
  let za := forwardZA (θs.zip acts) A0
  let Zs := za.map (fun p => p.1)
  let As := A0 :: za.map (fun p => p.2)
  let σlast := matSub ((za.map (fun p => p.2)).getLastD A0) y
  let σs := sigmaRec Zs.dropLast θs.tail grads.tail σlast
  ((gradBlocksSpec mseKind σs grads Zs As.dropLast θs lam m).map List.flatten).flatten

/-- The in-place coercion at the top of `predict` (lines 879-881):
`inputs = np.asarray(inputs); if len(inputs.shape) == 1:
inputs.shape = (1, inputs.shape[0])`.  A 1-D ndarray is reshaped to one
row without copying, so this is also the state of the caller's array
after the call. -/
def coerceInput : PyArray → Mat
  | .one v => [v]
  | .two M => M

/-- The caller's array object after `predict`'s coercion (the reshape
mutates the argument in place). -/
def mutateInput : PyArray → PyArray
  | .one v => .two [v]
  | .two M => .two M

/-- The layer loop of `predict` (lines 893-902):
`outputs = act(np.dot(concat(ones, outputs), theta[j].T))` for each
non-input layer in order. -/
def predictLoop (pairs : List (Mat × (ℚ → ℚ))) (outputs : Mat) : Mat :=
  pairs.foldl (fun out p => actMap p.2 (matMulT (addBias out) p.1)) outputs

/-- `MLPNetwork.predict` (lines 868-904).  The result triple is the
returned array, the caller's input array after the call (mutated by the
1-D reshape), and the network state after the call (the body only reads
`st`, so it is returned unchanged). -/
def predict (net : MLPNetwork) (st : NetState) (inputs : PyArray)
    (weights : Option (List ℚ)) : Except MLPErr (PyArray × PyArray × NetState) :=
  match get_theta net st weights with
  | .error e => .error e
  | .ok θ =>
      .ok (.two (predictLoop ((thetaMats θ).zip net.actFuncs) (coerceInput inputs)),
        mutateInput inputs, st)

/-- The number of example rows `predict` computes with: 1 for a 1-D
input, the row count for a 2-D batch.  Follows the specification's
words. -/
def inputRowCount : PyArray → ℕ
  | .one _ => 1
  | .two M => M.length

/-- The perturbation step `epsilon = 1.0e-4` of
`compute_derivative_numerically`. -/
def epsNum : ℚ := 1 / 10000

/-- The loop body of `compute_derivative_numerically` (lines 1412-1427):
at step `p` the perturbation vector gets `perturb[p] = e`, the cost is
taken at `theta - perturb` and `theta + perturb` (first component when a
tuple is returned), `numgrad[p] = (loss2 - loss1)/(2.0*e)`, and
`perturb[p] = 0.0` restores the vector for the next step.  The `fuel`
argument counts the remaining iterations of `range(n)`. -/
def cdnGo (J : List ℚ → CostResult) (theta : List ℚ) :
    ℕ → ℕ → List ℚ → List ℚ
  | 0, _, _ => []
  | fuel + 1, p, perturb =>
      let pert := perturb.set p epsNum
      let loss1 := costOf (J (List.zipWith (fun a b => a - b) theta pert))
      let loss2 := costOf (J (List.zipWith (fun a b => a + b) theta pert))
      ((loss2 - loss1) / (2 * epsNum)) :: cdnGo J theta fuel (p + 1) (pert.set p 0)

/-- `compute_derivative_numerically` (lines 1395-1429):
`numgrad = zeros(theta.shape); perturb = zeros(theta.shape)`, then the
loop over `range(len(theta))`. -/
def compute_derivative_numerically (J : List ℚ → CostResult) (theta : List ℚ) : List ℚ :=
  cdnGo J theta theta.length 0 (List.replicate theta.length 0)

/-- `theta` with only index `i` increased by `v` and every other index
unperturbed.  Follows the specification's words. -/
def perturbedAt (theta : List ℚ) (i : ℕ) (v : ℚ) : List ℚ :=
  theta.set i (theta.getD i 0 + v)

/-- `MLPTrainingData`: the paired input and output matrices (the `name`
string and the combined `data` matrix are presentational and omitted). -/
structure MLPTrainingDataS : Type where
  inputs : Mat
  outputs : Mat
deriving DecidableEq

/-- Python's `int()` applied to a float: truncation toward zero. -/
def pyInt (q : ℚ) : ℤ :=
  if 0 ≤ q then ((q.num.natAbs / q.den : ℕ) : ℤ)
  else -((q.num.natAbs / q.den : ℕ) : ℤ)

/-- Normalize one bound of a Python slice `a[start:stop]` on a sequence
of length `n`: negative indices count from the end, and both bounds are
clamped into `[0, n]`. -/
def sliceIdx (n : ℕ) (i : ℤ) : ℕ :=
  if i < 0 then ((n : ℤ) + i).toNat else min i.toNat n

/-- Python slicing `xs[start:stop]` (step 1). -/
def pySlice (start stop : ℤ) (xs : Mat) : Mat :=
  ((xs.drop (sliceIdx xs.length start)).take (sliceIdx xs.length stop - sliceIdx xs.length start))

/-- The subset loop of `split` (lines 1180-1188): for each entry of
`num`, slice `inputs[start:finish]` and `outputs[start:finish]` out of
the (shuffled) data and advance `start = finish`. -/
def splitSubsets (inputs outputs : Mat) : List ℤ → ℤ → List MLPTrainingDataS
  | [], _ => []
  | r :: rest, start =>
      ⟨pySlice start (start + r) inputs, pySlice start (start + r) outputs⟩ ::
        splitSubsets inputs outputs rest (start + r)

/-- `MLPTrainingData.split` (lines 1138-1188).  `ratios` must sum to 1.0
(else the `ValueError` at line 1153, the specification's
`ValidationError`); `num[i] = int(n*ratios[i])` with the last entry
replaced by the remainder; outputs and inputs are joined column-wise
(outputs first), shuffled as paired rows, re-split, and sliced into one
subset per ratio.  `np.random.shuffle` is modelled by the oracle
`shuffle` (the identity when the `shuffle` argument is false); the
result is the mutated parent (its reordered `inputs`/`outputs`) together
with the new `subsets` list. -/
def split (ts : MLPTrainingDataS) (ratios : List ℚ) (shuffle : Mat → Mat) :
    Except MLPErr (MLPTrainingDataS × List MLPTrainingDataS) :=
  if ratios.sum ≠ 1 then .error .validationError
  else
    let n : ℕ := ts.inputs.length
    let nOut : ℕ := (ts.outputs.headD []).length
    let num0 : List ℤ := ratios.map (fun r => pyInt ((n : ℚ) * r))
    let num : List ℤ := num0.dropLast ++ [(n : ℤ) - num0.dropLast.sum]
    let data := shuffle (List.zipWith (fun o i => o ++ i) ts.outputs ts.inputs)
    let outputs2 := data.map (List.take nOut)
    let inputs2 := data.map (List.drop nOut)
    .ok (⟨inputs2, outputs2⟩, splitSubsets inputs2 outputs2 num 0)

/-- The paired rows of a training set, output columns first, exactly as
`split` lays them out before shuffling. -/
def rowsOf (ts : MLPTrainingDataS) : Mat :=
  List.zipWith (fun o i => o ++ i) ts.outputs ts.inputs

/-- The subset list of a successful `split` (empty on error). -/
def subsetsOf (e : Except MLPErr (MLPTrainingDataS × List MLPTrainingDataS)) :
    List MLPTrainingDataS :=
  match e with
  | .ok p => p.2
  | .error _ => []

/-- The subset row counts the specification states: `floor(m*ratio)` for
every subset but the last, the last taking the remaining rows.  Follows
the specification's words. -/
def specSizes (n : ℕ) (ratios : List ℚ) : List ℕ :=
  (ratios.dropLast.map (fun r => (⌊(n : ℚ) * r⌋).toNat)) ++
    [n - (ratios.dropLast.map (fun r => (⌊(n : ℚ) * r⌋).toNat)).sum]

/-- A concrete 1-1 network with identity activation, used to instantiate
the theorems below on explicit inputs. -/
def exNet : MLPNetwork := ⟨[1, 1], [fun z => z], [fun _ => 1]⟩

/-- A concrete state for `exNet`. -/
def exSt : NetState := ⟨[0, 0], [[1, 0], [1, 0]]⟩

/-- A concrete 8-row training set (one input column, one output
column). -/
def ts8 : MLPTrainingDataS :=
  ⟨[[1], [2], [3], [4], [5], [6], [7], [8]],
   [[10], [20], [30], [40], [50], [60], [70], [80]]⟩

/-- C5: for every layer, `outputs[0] == 1.0` holds immediately after
construction, and whenever it holds before a `calculate_outputs` call it
still holds after — the call writes only `outputs[1:]`, never the bias
slot. -/
theorem mlp_c5_bias_slot_invariant (n : ℕ) (act : ℚ → ℚ) (W : Mat) (ins : List ℚ)
    (outs res : List ℚ) (h0 : outs.head? = some 1)
    (h : calculate_outputs act W (some ins) outs = .ok res) :
    (mlpLayerInitOutputs n).head? = some 1 ∧ res.head? = some 1 := by
  refine ⟨rfl, ?_⟩
  simp only [calculate_outputs, Except.ok.injEq] at h
  cases outs with
  | nil => simp at h0
  | cons a t =>
      simp only [List.head?_cons, Option.some.injEq] at h0
      subst h0
      simp [← h]

/-- C5 witness: the invariant instantiated on a concrete layer. -/
theorem mlp_c5_witness :
    (mlpLayerInitOutputs 2).head? = some 1 ∧ ([1, 14] : List ℚ).head? = some 1 :=
  mlp_c5_bias_slot_invariant 2 (fun z => z) [[2, 3]] [1, 4] [1, 0] [1, 14] rfl
    (by norm_num [calculate_outputs, matVec, dotL])

/-- C8: `get_theta` with a supplied flat weight vector whose length
differs from `n_weights` fails with `ShapeError` and returns no view
list. -/
theorem mlp_c8_theta_shape_error (net : MLPNetwork) (st : NetState) (w : List ℚ)
    (h : w.length ≠ n_weights net.ndim) :
    get_theta net st (some w) = .error .shapeError := by
  simp [get_theta, h]

/-- C8 witness: a 3-entry vector supplied to a network with 2 weights. -/
theorem mlp_c8_witness :
    (([1, 2, 3] : List ℚ).length ≠ n_weights exNet.ndim) ∧
      get_theta exNet exSt (some [1, 2, 3]) = .error .shapeError :=
  ⟨by decide, mlp_c8_theta_shape_error exNet exSt [1, 2, 3] (by decide)⟩

/-- C4: `predict` called with an explicit weights argument returns the
network state unchanged — the network's flat `weights` vector and every
layer's `outputs` array are exactly as before the call. -/
theorem mlp_c4_predict_leaves_state (net : MLPNetwork) (st : NetState) (inputs : PyArray)
    (w : List ℚ) (r i2 : PyArray) (st2 : NetState)
    (h : predict net st inputs (some w) = .ok (r, i2, st2)) : st2 = st := by
  unfold predict at h
  cases hg : get_theta net st (some w) with
  | error e => rw [hg] at h; exact absurd h (by simp)
  | ok θ =>
      rw [hg] at h
      simp only [Except.ok.injEq, Prod.mk.injEq] at h
      exact h.2.2.symm

/-- C4 witness: a concrete stateless `predict` call. -/
theorem mlp_c4_witness :
    predict exNet exSt (.one [3]) (some [5, 7]) = .ok (.two [[26]], .two [[3]], exSt) ∧
      exSt = exSt := by
  have hp : predict exNet exSt (.one [3]) (some [5, 7]) =
      .ok (.two [[26]], .two [[3]], exSt) := by
    norm_num [predict, get_theta, thetaMats, carve, reshape, predictLoop, addBias,
      matMulT, dotL, actMap, coerceInput, mutateInput, n_weights, layerDims, exNet, exSt]
  exact ⟨hp, mlp_c4_predict_leaves_state exNet exSt (.one [3]) [5, 7] _ _ _ hp⟩

/-- C10: the coercion at the top of `predict` reshapes a 1-D ndarray
argument in place to shape `(1, n)`: after any successful call the
caller's array object is the 2-D one-row array (a different shape from
the 1-D array passed in), not a copy. -/
theorem mlp_c10_input_reshaped_in_place (v : List ℚ) :
    mutateInput (.one v) = .two [v] ∧ PyArray.two [v] ≠ PyArray.one v ∧
      ∀ (net : MLPNetwork) (st : NetState) (w : Option (List ℚ)) (r i2 : PyArray)
        (st2 : NetState), predict net st (.one v) w = .ok (r, i2, st2) → i2 = .two [v] := by
  refine ⟨rfl, by intro h; exact PyArray.noConfusion h, ?_⟩
  intro net st w r i2 st2 h
  unfold predict at h
  cases hg : get_theta net st w with
  | error e => rw [hg] at h; exact absurd h (by simp)
  | ok θ =>
      rw [hg] at h
      simp only [Except.ok.injEq, Prod.mk.injEq] at h
      exact h.2.1.symm

/-- C10 witness: the in-place reshape observed on a concrete call. -/
theorem mlp_c10_witness :
    mutateInput (.one [3]) = PyArray.two [[3]] ∧ PyArray.two [[3]] ≠ PyArray.one [3] ∧
      PyArray.two [[3]] = PyArray.two [[3]] := by
  have hp : predict exNet exSt (.one [3]) (some [5, 7]) =
      .ok (.two [[26]], .two [[3]], exSt) := by
    norm_num [predict, get_theta, thetaMats, carve, reshape, predictLoop, addBias,
      matMulT, dotL, actMap, coerceInput, mutateInput, n_weights, layerDims, exNet, exSt]
  exact ⟨(mlp_c10_input_reshaped_in_place [3]).1,
    (mlp_c10_input_reshaped_in_place [3]).2.1,
    (mlp_c10_input_reshaped_in_place [3]).2.2 exNet exSt (some [5, 7]) _ _ _ hp⟩

theorem flatten_reshape (c : ℕ) : ∀ (r : ℕ) (xs : List ℚ),
    (reshape r c xs).flatten = xs.take (r * c) := by
  intro r
  induction r with
  | zero => intro xs; simp [reshape]
  | succ r ih =>
      intro xs
      have hadd : (r + 1) * c = c + r * c := by ring
      rw [hadd, List.take_add]
      simp [reshape, ih]

theorem carve_flatten : ∀ (dims : List (ℕ × ℕ)) (xs : List ℚ),
    xs.length = ((dims.map fun p => p.1 * p.2).sum) →
    ((carve dims xs).map List.flatten).flatten = xs := by
  intro dims
  induction dims with
  | nil =>
      intro xs h
      simp at h
      simp [carve, h]
  | cons d dims ih =>
      intro xs h
      obtain ⟨r, c⟩ := d
      simp only [carve, List.map_cons, List.flatten_cons]
      rw [flatten_reshape, List.take_take, min_self]
      rw [ih (xs.drop (r * c)) (by simp at h ⊢; omega)]
      exact List.take_append_drop (r * c) xs

/-- C3: for every constructed network (a state whose flat weight vector
has length `n_weights`), the `get_theta` view list — `None` for the
input layer, then one block per non-input layer — flattened and
concatenated layer-by-layer reconstructs exactly the flat `weights`
vector. -/
theorem mlp_c3_theta_roundtrip (net : MLPNetwork) (st : NetState)
    (h : st.weights.length = n_weights net.ndim) :
    ∃ θ, get_theta net st none = .ok θ ∧ θ.head? = some none ∧
      flattenTheta θ = st.weights := by
  refine ⟨_, rfl, rfl, ?_⟩
  simp only [flattenTheta, List.map_cons, List.map_map, List.flatten_cons]
  have hmap : ((carve (layerDims net.ndim) st.weights).map
      ((fun o => (Option.getD o []).flatten) ∘ (fun M => some M))) =
      (carve (layerDims net.ndim) st.weights).map List.flatten := by
    simp
  rw [hmap, carve_flatten (layerDims net.ndim) st.weights h]
  simp

/-- C3 witness: the round trip on a concrete 1-1 network. -/
theorem mlp_c3_witness :
    exSt.weights.length = n_weights exNet.ndim ∧
      ∃ θ, get_theta exNet exSt none = .ok θ ∧ θ.head? = some none ∧
        flattenTheta θ = exSt.weights :=
  ⟨by decide, mlp_c3_theta_roundtrip exNet exSt (by decide)⟩

theorem regFoldLemma (lam m : ℚ) : ∀ (θs : List Mat) (a : ℚ),
    θs.foldl (fun J θ => J + lam * matSumSq (dropBiasCol θ) / (2 * m)) a
      = a + lam * ((θs.map fun θ => matSumSq (dropBiasCol θ)).sum) / (2 * m) := by
  intro θs
  induction θs with
  | nil => intro a; simp
  | cons θ t ih =>
      intro a
      simp only [List.foldl_cons, List.map_cons, List.sum_cons]
      rw [ih]
      ring

/-- C1: for every network and batch, the mean-squared-error objective's
cost equals `0.5 · Σ(A[L-1] − y)² / m` plus the regularization term
`lambda · Σ_j Σ(theta[j][:, 1:])² / (2m)` — the bias column of every
weight block excluded — the latter vanishing exactly when `lambda` is
zero (the code adds the per-layer terms only in the `lambda != 0`
branch; the regularized form holds for every `lambda`). -/
theorem mlp_c1_mse_cost (θs : List Mat) (acts grads : List (ℚ → ℚ)) (X y : Mat)
    (lam : ℚ) (jac : Bool) :
    costOf (cost_function_mse_theta θs acts grads X y lam jac)
      = 1 / 2 * matSumSq (matSub (forwardLastA θs acts X) y) / (X.length : ℚ)
        + lam * ((θs.map fun θ => matSumSq (dropBiasCol θ)).sum)
          / (2 * (X.length : ℚ)) := by
  have hcost : costOf (cost_function_mse_theta θs acts grads X y lam jac)
      = mseJ θs acts X y lam := by
    cases jac <;> simp [cost_function_mse_theta, costOf]
  rw [hcost]
  simp only [mseJ]
  by_cases hl : lam = 0
  · subst hl
    simp
  · rw [if_pos hl, regFoldLemma]

theorem gradBlocksMse_eq_spec : ∀ (σs : List Mat) (gs : List (ℚ → ℚ))
    (Zs Aps θt : List Mat) (lam m : ℚ),
    gradBlocksMse σs gs Zs Aps θt lam m = gradBlocksSpec true σs gs Zs Aps θt lam m := by
  intro σs
  induction σs with
  | nil => intro gs Zs Aps θt lam m; simp [gradBlocksMse, gradBlocksSpec]
  | cons σ σt ih =>
      intro gs Zs Aps θt lam m
      cases gs with
      | nil => simp [gradBlocksMse, gradBlocksSpec]
      | cons g gs =>
          cases Zs with
          | nil => simp [gradBlocksMse, gradBlocksSpec]
          | cons Z Zs =>
              cases Aps with
              | nil => simp [gradBlocksMse, gradBlocksSpec]
              | cons Ap Aps =>
                  cases θt with
                  | nil => simp [gradBlocksMse, gradBlocksSpec]
                  | cons θ θt => simp [gradBlocksMse, gradBlocksSpec, ih]

theorem gradBlocksLog_eq_spec : ∀ (σs : List Mat) (gs : List (ℚ → ℚ))
    (Zs Aps θt : List Mat) (lam m : ℚ),
    σs.length ≤ gs.length → σs.length ≤ Zs.length →
    gradBlocksLog σs Aps θt lam m = gradBlocksSpec false σs gs Zs Aps θt lam m := by
  intro σs
  induction σs with
  | nil => intro gs Zs Aps θt lam m _ _; simp [gradBlocksLog, gradBlocksSpec]
  | cons σ σt ih =>
      intro gs Zs Aps θt lam m hg hz
      cases gs with
      | nil => simp at hg
      | cons g gs =>
          cases Zs with
          | nil => simp at hz
          | cons Z Zs =>
              cases Aps with
              | nil => simp [gradBlocksLog, gradBlocksSpec]
              | cons Ap Aps =>
                  cases θt with
                  | nil => simp [gradBlocksLog, gradBlocksSpec]
                  | cons θ θt =>
                      simp only [List.length_cons, Nat.succ_le_succ_iff] at hg hz
                      simp [gradBlocksLog, gradBlocksSpec, ih gs Zs Aps θt lam m hg hz]

theorem forwardZA_length : ∀ (l : List (Mat × (ℚ → ℚ))) (A : Mat),
    (forwardZA l A).length = l.length := by
  intro l
  induction l with
  | nil => intro A; simp [forwardZA]
  | cons p t ih => intro A; obtain ⟨θ, f⟩ := p; simp [forwardZA, ih]

theorem sigmaRec_length : ∀ (Zs θt : List Mat) (gs : List (ℚ → ℚ)) (σ : Mat),
    (sigmaRec Zs θt gs σ).length = min Zs.length (min θt.length gs.length) + 1 := by
  intro Zs
  induction Zs with
  | nil => intro θt gs σ; simp [sigmaRec]
  | cons Z Zs ih =>
      intro θt gs σ
      cases θt with
      | nil => simp [sigmaRec]
      | cons θ θt =>
          cases gs with
          | nil => simp [sigmaRec]
          | cons g gs => simp [sigmaRec, ih]; omega

/-- C2: in the gradient pass of the objective, both kinds follow the one
shared reverse pipeline of the specification — `sigma[L-1] = A[L-1] - y`,
the identical hidden-layer recursion, `gradient[j] = (delta[j] + lambda ·
zero_bias_column(weights[j])) / m`, blocks assembled flat in the weight
layout — and they differ only at the delta stage, where the logistic
kind takes `delta[j] = sigma[j]ᵗ · A[j-1]` and the mean-squared-error
kind `delta[j] = (sigma[j] ⊙ gradient_j(Z[j]))ᵗ · A[j-1]`. -/
theorem mlp_c2_backprop_delta (θs : List Mat) (acts grads : List (ℚ → ℚ)) (X y : Mat)
    (lam : ℚ) (log : ℚ → ℚ) (ha : acts.length = θs.length)
    (hg : grads.length = θs.length) :
    gradOf (cost_function_log_theta log θs acts grads X y lam true)
        = specGradFlat false θs acts grads X y lam ∧
      gradOf (cost_function_mse_theta θs acts grads X y lam true)
        = specGradFlat true θs acts grads X y lam := by
  constructor
  · show logGradFlat θs acts grads X y lam = specGradFlat false θs acts grads X y lam
    cases θs with
    | nil =>
        cases grads with
        | nil =>
            simp [logGradFlat, specGradFlat, forwardZA, sigmaRec, gradBlocksLog,
              gradBlocksSpec]
        | cons g gs => simp at hg
    | cons θ θt =>
        have hZ : ((forwardZA ((θ :: θt).zip acts) (addBias X)).map
            (fun p => p.1)).length = θt.length + 1 := by
          simp [forwardZA_length, ha]
        have hσ : ∀ σL, (sigmaRec ((forwardZA ((θ :: θt).zip acts) (addBias X)).map
            (fun p => p.1)).dropLast (θ :: θt).tail grads.tail σL).length
            = θt.length + 1 := by
          intro σL
          rw [sigmaRec_length]
          simp only [List.length_dropLast, List.length_tail, hZ, List.length_cons]
          rw [hg]
          simp
        simp only [logGradFlat, specGradFlat]
        rw [gradBlocksLog_eq_spec _ grads _ _ _ lam _ ?_ ?_]
        · rw [hσ, hg]; simp
        · rw [hσ, hZ]
  · show mseGradFlat θs acts grads X y lam = specGradFlat true θs acts grads X y lam
    simp only [mseGradFlat, specGradFlat]
    rw [gradBlocksMse_eq_spec]

/-- C2 witness: the two pipelines instantiated on a concrete 1-1
network. -/
theorem mlp_c2_witness :
    gradOf (cost_function_log_theta (fun z => z) [[[5, 7]]] [fun z => z] [fun _ => 1]
        [[1]] [[0]] 0 true)
      = specGradFlat false [[[5, 7]]] [fun z => z] [fun _ => 1] [[1]] [[0]] 0 ∧
    gradOf (cost_function_mse_theta [[[5, 7]]] [fun z => z] [fun _ => 1]
        [[1]] [[0]] 0 true)
      = specGradFlat true [[[5, 7]]] [fun z => z] [fun _ => 1] [[1]] [[0]] 0 :=
  mlp_c2_backprop_delta [[[5, 7]]] [fun z => z] [fun _ => 1] [[1]] [[0]] 0
    (fun z => z) rfl rfl

theorem set_replicate_zero (n p : ℕ) :
    (List.replicate n (0 : ℚ)).set p 0 = List.replicate n 0 := by
  induction n generalizing p with
  | zero => simp
  | succ n ih =>
      cases p with
      | zero => simp [List.replicate_succ, List.set]
      | succ p => simp [List.replicate_succ, List.set, ih]

theorem zipWith_add_zeros (θ : List ℚ) :
    List.zipWith (fun a b => a + b) θ (List.replicate θ.length 0) = θ := by
  induction θ with
  | nil => rfl
  | cons x t ih => simp [List.replicate_succ, ih]

theorem zipWith_sub_zeros (θ : List ℚ) :
    List.zipWith (fun a b => a - b) θ (List.replicate θ.length 0) = θ := by
  induction θ with
  | nil => rfl
  | cons x t ih => simp [List.replicate_succ, ih]

theorem zipWith_add_set (θ : List ℚ) : ∀ (i : ℕ) (v : ℚ), i < θ.length →
    List.zipWith (fun a b => a + b) θ ((List.replicate θ.length (0 : ℚ)).set i v)
      = perturbedAt θ i v := by
  induction θ with
  | nil => intro i v h; simp at h
  | cons x t ih =>
      intro i v h
      cases i with
      | zero =>
          simp [List.replicate_succ, List.set, perturbedAt, zipWith_add_zeros]
      | succ i =>
          simp only [List.length_cons, List.replicate_succ, List.set,
            List.zipWith_cons_cons, add_zero, perturbedAt, List.getD_cons_succ]
          simp only [List.length_cons, Nat.succ_lt_succ_iff] at h
          rw [ih i v h]
          rfl

theorem zipWith_sub_set (θ : List ℚ) : ∀ (i : ℕ) (v : ℚ), i < θ.length →
    List.zipWith (fun a b => a - b) θ ((List.replicate θ.length (0 : ℚ)).set i v)
      = perturbedAt θ i (-v) := by
  induction θ with
  | nil => intro i v h; simp at h
  | cons x t ih =>
      intro i v h
      cases i with
      | zero =>
          simp only [List.length_cons, List.replicate_succ, List.set,
            List.zipWith_cons_cons, perturbedAt, List.getD_cons_zero]
          rw [zipWith_sub_zeros, sub_eq_add_neg]
      | succ i =>
          simp only [List.length_cons, List.replicate_succ, List.set,
            List.zipWith_cons_cons, sub_zero, perturbedAt, List.getD_cons_succ]
          simp only [List.length_cons, Nat.succ_lt_succ_iff] at h
          rw [ih i v h]
          rfl

theorem cdnGo_elem (J : List ℚ → CostResult) (θ : List ℚ) (n : ℕ) :
    ∀ (fuel p i : ℕ), i < fuel →
    (cdnGo J θ fuel p (List.replicate n 0))[i]? = some
      ((costOf (J (List.zipWith (fun a b => a + b) θ
          ((List.replicate n (0 : ℚ)).set (p + i) epsNum)))
        - costOf (J (List.zipWith (fun a b => a - b) θ
          ((List.replicate n (0 : ℚ)).set (p + i) epsNum)))) / (2 * epsNum)) := by
  intro fuel
  induction fuel with
  | zero => intro p i h; omega
  | succ fuel ih =>
      intro p i h
      cases i with
      | zero => simp [cdnGo]
      | succ i =>
          have hstep : (cdnGo J θ (fuel + 1) p (List.replicate n 0))[i + 1]?
              = (cdnGo J θ fuel (p + 1) (List.replicate n 0))[i]? := by
            simp only [cdnGo, List.set_set, set_replicate_zero, List.getElem?_cons_succ]
          rw [hstep, ih (p + 1) i (by omega)]
          have harith : p + 1 + i = p + (i + 1) := by omega
          rw [harith]

theorem cdnGo_cost_congr (J1 J2 : List ℚ → CostResult) (θ : List ℚ)
    (h : ∀ t, costOf (J1 t) = costOf (J2 t)) :
    ∀ (fuel p : ℕ) (pert : List ℚ),
      cdnGo J1 θ fuel p pert = cdnGo J2 θ fuel p pert := by
  intro fuel
  induction fuel with
  | zero => intro p pert; rfl
  | succ fuel ih => intro p pert; simp [cdnGo, h, ih]

/-- C6: the numerical gradient estimator computes, for each index `i`
independently, `numgrad[i] = (f(theta+) - f(theta-)) / (2*epsilon)` with
`epsilon = 1e-4`, where `theta+`/`theta-` perturb only index `i` by
`+epsilon`/`-epsilon` and leave every other index untouched; when `f`
returns a `(cost, gradient)` pair only the cost component is used. -/
theorem mlp_c6_numerical_gradient :
    (∀ (J : List ℚ → CostResult) (θ : List ℚ) (i : ℕ), i < θ.length →
      (compute_derivative_numerically J θ)[i]? =
        some ((costOf (J (perturbedAt θ i (1 / 10000)))
          - costOf (J (perturbedAt θ i (-(1 / 10000))))) / (2 * (1 / 10000)))) ∧
    (∀ (Jc : List ℚ → ℚ) (Jg : List ℚ → List ℚ) (θ : List ℚ),
      compute_derivative_numerically (fun t => .withGrad (Jc t) (Jg t)) θ
        = compute_derivative_numerically (fun t => .costOnly (Jc t)) θ) := by
  constructor
  · intro J θ i h
    unfold compute_derivative_numerically
    rw [cdnGo_elem J θ θ.length θ.length 0 i h]
    simp only [Nat.zero_add]
    rw [zipWith_add_set θ i epsNum h, zipWith_sub_set θ i epsNum h]
    rfl
  · intro Jc Jg θ
    unfold compute_derivative_numerically
    exact cdnGo_cost_congr (fun t => CostResult.withGrad (Jc t) (Jg t))
      (fun t => CostResult.costOnly (Jc t)) θ (fun t => rfl) θ.length 0 _

/-- C6 witness: the estimator at index 0 of a one-weight vector. -/
theorem mlp_c6_witness :
    0 < ([3] : List ℚ).length ∧
    (compute_derivative_numerically
        (fun t => CostResult.costOnly (t.headD 0 * t.headD 0)) [3])[0]? =
      some ((costOf ((fun t => CostResult.costOnly (t.headD 0 * t.headD 0))
          (perturbedAt [3] 0 (1 / 10000)))
        - costOf ((fun t => CostResult.costOnly (t.headD 0 * t.headD 0))
          (perturbedAt [3] 0 (-(1 / 10000))))) / (2 * (1 / 10000))) :=
  ⟨by decide, mlp_c6_numerical_gradient.1
    (fun t => CostResult.costOnly (t.headD 0 * t.headD 0)) [3] 0 (by decide)⟩

theorem reshape_length (c : ℕ) : ∀ (r : ℕ) (xs : List ℚ), (reshape r c xs).length = r := by
  intro r
  induction r with
  | zero => intro xs; rfl
  | succ r ih => intro xs; simp [reshape, ih]

theorem carve_length : ∀ (dims : List (ℕ × ℕ)) (xs : List ℚ),
    (carve dims xs).length = dims.length := by
  intro dims
  induction dims with
  | nil => intro xs; rfl
  | cons d dims ih => intro xs; obtain ⟨r, c⟩ := d; simp [carve, ih]

theorem carve_map_length : ∀ (dims : List (ℕ × ℕ)) (xs : List ℚ),
    (carve dims xs).map List.length = dims.map Prod.fst := by
  intro dims
  induction dims with
  | nil => intro xs; rfl
  | cons d dims ih =>
      intro xs
      obtain ⟨r, c⟩ := d
      simp [carve, reshape_length, ih]

theorem layerDims_length (ndim : List ℕ) : (layerDims ndim).length = ndim.length - 1 := by
  cases ndim with
  | nil => rfl
  | cons a t => simp [layerDims]

theorem predictLoop_length : ∀ (ps : List (Mat × (ℚ → ℚ))) (out : Mat),
    (predictLoop ps out).length = out.length := by
  intro ps
  induction ps with
  | nil => intro out; rfl
  | cons p ps ih =>
      intro out
      show (predictLoop ps _).length = _
      rw [ih]
      simp [actMap, matMulT, addBias]

theorem layerDims_getLast? : ∀ (rest : List ℕ) (a b : ℕ),
    ∃ c, (layerDims (a :: b :: rest)).getLast? = some ((b :: rest).getLastD 0, c) := by
  intro rest
  induction rest with
  | nil => intro a b; exact ⟨a + 1, rfl⟩
  | cons c0 rest ih =>
      intro a b
      obtain ⟨c, hc⟩ := ih b c0
      refine ⟨c, ?_⟩
      show ((b, a + 1) :: layerDims (b :: c0 :: rest)).getLast? = _
      have hne : layerDims (b :: c0 :: rest) = (c0, b + 1) :: layerDims (c0 :: rest) := rfl
      rw [hne, List.getLast?_cons_cons, ← hne, hc]
      simp [List.getLastD]

theorem step_row_lengths (f : ℚ → ℚ) (M : Mat) (A : Mat) :
    ∀ row ∈ actMap f (matMulT A M), row.length = M.length := by
  intro row hrow
  simp only [actMap, matMulT, List.mem_map] at hrow
  obtain ⟨mid, hmid, rfl⟩ := hrow
  obtain ⟨r, hr, rfl⟩ := hmid
  simp

theorem predictLoop_row_lengths : ∀ (mats : List Mat) (acts : List (ℚ → ℚ)) (out : Mat),
    mats.length = acts.length → mats ≠ [] →
    ∀ row ∈ predictLoop (mats.zip acts) out, row.length = (mats.getLast?.getD []).length := by
  intro mats
  induction mats with
  | nil => intro acts out h hne; exact absurd rfl hne
  | cons M mats ih =>
      intro acts out h hne
      cases acts with
      | nil => simp at h
      | cons f acts =>
          cases mats with
          | nil =>
              cases acts with
              | nil =>
                  intro row hrow
                  have hstep : predictLoop ([M].zip [f]) out
                      = actMap f (matMulT (addBias out) M) := rfl
                  rw [hstep] at hrow
                  exact step_row_lengths f M (addBias out) row hrow
              | cons g acts => simp at h
          | cons M2 mats =>
              cases acts with
              | nil => simp at h
              | cons f2 acts =>
                  intro row hrow
                  have hstep : predictLoop (((M :: M2 :: mats).zip (f :: f2 :: acts))) out
                      = predictLoop ((M2 :: mats).zip (f2 :: acts))
                        (actMap f (matMulT (addBias out) M)) := rfl
                  rw [hstep] at hrow
                  have hlen : (M2 :: mats).length = (f2 :: acts).length := by
                    simpa using h
                  have := ih (f2 :: acts) (actMap f (matMulT (addBias out) M)) hlen
                    (by simp) row hrow
                  rw [this]
                  rfl

theorem get_theta_shape (net : MLPNetwork) (st : NetState) (w : Option (List ℚ))
    (θ : List (Option Mat)) (h : get_theta net st w = .ok θ) :
    ∃ w', θ = none :: (carve (layerDims net.ndim) w').map (fun M => some M) := by
  cases w with
  | none => exact ⟨st.weights, (Except.ok.inj h).symm⟩
  | some v =>
      simp only [get_theta] at h
      by_cases hl : v.length ≠ n_weights net.ndim
      · rw [if_pos hl] at h; exact absurd h (by simp)
      · rw [if_neg hl] at h; exact ⟨v, (Except.ok.inj h).symm⟩

theorem thetaMats_shape (l : List Mat) :
    thetaMats (none :: l.map (fun M => some M)) = l := by
  show (l.map (fun M => some M)).map (fun o => o.getD []) = l
  rw [List.map_map]
  have hcomp : ((fun o : Option Mat => o.getD []) ∘ fun M => some M) = id := rfl
  rw [hcomp, List.map_id]

theorem carve_last_rows (ndim : List ℕ) (w' : List ℚ) (hdim : 2 ≤ ndim.length) :
    ((carve (layerDims ndim) w').getLast?.getD []).length = ndim.getLastD 0 := by
  cases ndim with
  | nil => simp at hdim
  | cons a t =>
      cases t with
      | nil => simp at hdim
      | cons b rest =>
          obtain ⟨c, hc⟩ := layerDims_getLast? rest a b
          have hmap : ((carve (layerDims (a :: b :: rest)) w').map List.length).getLast?
              = some ((b :: rest).getLastD 0) := by
            rw [carve_map_length, List.getLast?_map, hc]
            rfl
          rw [List.getLast?_map] at hmap
          cases hlast : (carve (layerDims (a :: b :: rest)) w').getLast? with
          | none => rw [hlast] at hmap; exact absurd hmap (by simp)
          | some lastM =>
              rw [hlast] at hmap
              simp at hmap
              simp only [Option.getD_some, hmap]
              rw [List.getLastD_eq_getLast?]
              rfl

/-- C9 counterexample: for the concrete 1-1 network, `predict` on the
1-D input `[3]` returns the 1 × 1 two-dimensional array `[[26]]`, which
is not a 1-D vector — so the claim that a 1-D input yields a 1-D result
is false on the code. -/
theorem mlp_c9_counterexample :
    predict exNet exSt (.one [3]) (some [5, 7]) = .ok (.two [[26]], .two [[3]], exSt) ∧
      ∀ v : List ℚ, PyArray.two [[26]] ≠ PyArray.one v := by
  constructor
  · norm_num [predict, get_theta, thetaMats, carve, reshape, predictLoop, addBias,
      matMulT, dotL, actMap, coerceInput, mutateInput, n_weights, layerDims, exNet, exSt]
  · intro v h
    exact PyArray.noConfusion h

/-- C9 (amended): `predict` always returns a 2-D array: for a 2-D batch
of m rows an m × n_out matrix, and for a 1-D single-example input a
1 × n_out matrix (one row, not a 1-D vector). -/
theorem mlp_c9_predict_shape (net : MLPNetwork) (st : NetState) (X : PyArray)
    (w : Option (List ℚ)) (r i2 : PyArray) (st2 : NetState)
    (hdim : 2 ≤ net.ndim.length) (hacts : net.actFuncs.length = net.ndim.length - 1)
    (h : predict net st X w = .ok (r, i2, st2)) :
    ∃ M : Mat, r = .two M ∧ M.length = inputRowCount X ∧
      ∀ row ∈ M, row.length = net.ndim.getLastD 0 := by
  unfold predict at h
  cases hg : get_theta net st w with
  | error e => rw [hg] at h; exact absurd h (by simp)
  | ok θ =>
      rw [hg] at h
      simp only [Except.ok.injEq, Prod.mk.injEq] at h
      obtain ⟨hr, _, _⟩ := h
      obtain ⟨w', hθ⟩ := get_theta_shape net st w θ hg
      subst hθ
      rw [thetaMats_shape] at hr
      refine ⟨predictLoop ((carve (layerDims net.ndim) w').zip net.actFuncs)
        (coerceInput X), hr.symm, ?_, ?_⟩
      · rw [predictLoop_length]
        cases X <;> rfl
      · intro row hrow
        have hclen : (carve (layerDims net.ndim) w').length = net.actFuncs.length := by
          rw [carve_length, layerDims_length, hacts]
        have hcne : carve (layerDims net.ndim) w' ≠ [] := by
          rw [← List.length_pos, carve_length, layerDims_length]
          omega
        rw [predictLoop_row_lengths (carve (layerDims net.ndim) w') net.actFuncs
          (coerceInput X) hclen hcne row hrow]
        exact carve_last_rows net.ndim w' hdim

/-- C9 witness: the amended shape statement on a concrete call. -/
theorem mlp_c9_witness :
    2 ≤ exNet.ndim.length ∧
      ∃ M : Mat, PyArray.two [[26]] = .two M ∧ M.length = inputRowCount (.one [3]) ∧
        ∀ row ∈ M, row.length = exNet.ndim.getLastD 0 := by
  have hp : predict exNet exSt (.one [3]) (some [5, 7]) =
      .ok (.two [[26]], .two [[3]], exSt) := by
    norm_num [predict, get_theta, thetaMats, carve, reshape, predictLoop, addBias,
      matMulT, dotL, actMap, coerceInput, mutateInput, n_weights, layerDims, exNet, exSt]
  exact ⟨by decide, mlp_c9_predict_shape exNet exSt (.one [3]) (some [5, 7]) _ _ _
    (by decide) (by decide) hp⟩

theorem pyInt_nonneg (q : ℚ) (h : 0 ≤ q) : 0 ≤ pyInt q := by
  simp only [pyInt, if_pos h]
  exact Int.natCast_nonneg _

theorem pyInt_eq_floor (q : ℚ) (h : 0 ≤ q) : pyInt q = ⌊q⌋ := by
  simp only [pyInt, if_pos h]
  rw [Rat.floor_def, ← Int.natAbs_of_nonneg (Rat.num_nonneg.mpr h)]
  norm_cast

theorem pyInt_le (q : ℚ) (h : 0 ≤ q) : (pyInt q : ℚ) ≤ q := by
  rw [pyInt_eq_floor q h]
  exact Int.floor_le q

theorem pySlice_eq (s e : ℤ) (xs : Mat) (hs : 0 ≤ s) (hse : s ≤ e)
    (hen : e ≤ (xs.length : ℤ)) :
    pySlice s e xs = (xs.drop s.toNat).take (e.toNat - s.toNat) := by
  simp only [pySlice, sliceIdx]
  rw [if_neg (by omega), if_neg (by omega), min_eq_left (by omega),
    min_eq_left (by omega)]

theorem pySlice_length (s e : ℤ) (xs : Mat) (hs : 0 ≤ s) (hse : s ≤ e)
    (hen : e ≤ (xs.length : ℤ)) :
    (pySlice s e xs).length = (e - s).toNat := by
  rw [pySlice_eq s e xs hs hse hen]
  simp only [List.length_take, List.length_drop]
  omega

theorem pySlice_zipWith (f : List ℚ → List ℚ → List ℚ) (s e : ℤ) (O I : Mat)
    (hlen : O.length = I.length) :
    List.zipWith f (pySlice s e O) (pySlice s e I) = pySlice s e (List.zipWith f O I) := by
  have hz : (List.zipWith f O I).length = I.length := by
    rw [List.length_zipWith, hlen]
    simp
  simp only [pySlice, hz, hlen, List.drop_zipWith, List.take_zipWith]

theorem dropLast_map (f : ℚ → ℤ) : ∀ l : List ℚ, (l.map f).dropLast = l.dropLast.map f := by
  intro l
  induction l with
  | nil => rfl
  | cons x t ih =>
      cases t with
      | nil => rfl
      | cons y t =>
          simp only [List.map_cons, List.dropLast_cons₂, ← ih, List.map_cons]

theorem sum_toNat_of_nonneg : ∀ l : List ℤ, (∀ x ∈ l, 0 ≤ x) →
    ((l.map Int.toNat).sum : ℤ) = l.sum := by
  intro l
  induction l with
  | nil => intro h; rfl
  | cons x t ih =>
      intro h
      simp only [List.map_cons, List.sum_cons]
      have hx : 0 ≤ x := h x (by simp)
      have ht := ih (fun y hy => h y (by simp [hy]))
      rw [Nat.cast_add, ht, Int.toNat_of_nonneg hx]

theorem splitSubsets_length (I O : Mat) : ∀ (num : List ℤ) (start : ℤ),
    (splitSubsets I O num start).length = num.length := by
  intro num
  induction num with
  | nil => intro start; rfl
  | cons x rest ih => intro start; simp [splitSubsets, ih]

theorem splitSubsets_inputs_sizes (I O : Mat) : ∀ (num : List ℤ) (start : ℤ),
    0 ≤ start → (∀ x ∈ num, 0 ≤ x) → start + num.sum ≤ (I.length : ℤ) →
    (splitSubsets I O num start).map (fun s => s.inputs.length) = num.map Int.toNat := by
  intro num
  induction num with
  | nil => intro start _ _ _; rfl
  | cons x rest ih =>
      intro start h0 hnn hsum
      have hx : 0 ≤ x := hnn x (by simp)
      have hrest : 0 ≤ rest.sum := List.sum_nonneg (fun y hy => hnn y (by simp [hy]))
      simp only [List.sum_cons] at hsum
      simp only [splitSubsets, List.map_cons]
      rw [pySlice_length start (start + x) I h0 (by omega) (by omega)]
      rw [ih (start + x) (by omega) (fun y hy => hnn y (by simp [hy])) (by omega)]
      congr 1
      omega

theorem splitSubsets_outputs_sizes (I O : Mat) : ∀ (num : List ℤ) (start : ℤ),
    0 ≤ start → (∀ x ∈ num, 0 ≤ x) → start + num.sum ≤ (O.length : ℤ) →
    (splitSubsets I O num start).map (fun s => s.outputs.length) = num.map Int.toNat := by
  intro num
  induction num with
  | nil => intro start _ _ _; rfl
  | cons x rest ih =>
      intro start h0 hnn hsum
      have hx : 0 ≤ x := hnn x (by simp)
      have hrest : 0 ≤ rest.sum := List.sum_nonneg (fun y hy => hnn y (by simp [hy]))
      simp only [List.sum_cons] at hsum
      simp only [splitSubsets, List.map_cons]
      rw [pySlice_length start (start + x) O h0 (by omega) (by omega)]
      rw [ih (start + x) (by omega) (fun y hy => hnn y (by simp [hy])) (by omega)]
      congr 1
      omega

theorem splitSubsets_rows_flatten (I O : Mat) (hlen : O.length = I.length) :
    ∀ (num : List ℤ) (start : ℤ),
    0 ≤ start → (∀ x ∈ num, 0 ≤ x) → start + num.sum = (I.length : ℤ) →
    ((splitSubsets I O num start).map rowsOf).flatten
      = (List.zipWith (fun o i => o ++ i) O I).drop start.toNat := by
  intro num
  induction num with
  | nil =>
      intro start h0 _ hsum
      simp only [List.sum_nil, add_zero] at hsum
      simp only [splitSubsets, List.map_nil, List.flatten_nil]
      rw [List.drop_eq_nil_of_le]
      rw [List.length_zipWith, hlen]
      omega
  | cons x rest ih =>
      intro start h0 hnn hsum
      have hx : 0 ≤ x := hnn x (by simp)
      have hrest : 0 ≤ rest.sum := List.sum_nonneg (fun y hy => hnn y (by simp [hy]))
      simp only [List.sum_cons] at hsum
      have hR : (List.zipWith (fun o i : List ℚ => o ++ i) O I).length = I.length := by
        rw [List.length_zipWith, hlen]
        simp
      simp only [splitSubsets, List.map_cons, List.flatten_cons]
      have hrows : rowsOf ⟨pySlice start (start + x) I, pySlice start (start + x) O⟩
          = pySlice start (start + x) (List.zipWith (fun o i => o ++ i) O I) := by
        show List.zipWith (fun o i => o ++ i) (pySlice start (start + x) O)
          (pySlice start (start + x) I) = _
        exact pySlice_zipWith (fun o i => o ++ i) start (start + x) O I hlen
      rw [hrows, pySlice_eq start (start + x) _ h0 (by omega) (by rw [hR]; omega)]
      rw [ih (start + x) (by omega) (fun y hy => hnn y (by simp [hy])) (by omega)]
      have hdd : (List.zipWith (fun o i : List ℚ => o ++ i) O I).drop (start + x).toNat
          = ((List.zipWith (fun o i : List ℚ => o ++ i) O I).drop start.toNat).drop
            ((start + x).toNat - start.toNat) := by
        rw [List.drop_drop]
        congr 1
        omega
      rw [hdd]
      exact List.take_append_drop _ _

theorem firsts_nonneg (n : ℕ) (ratios : List ℚ) (hr : ∀ r ∈ ratios, 0 ≤ r) :
    ∀ x ∈ ratios.dropLast.map (fun r => pyInt ((n : ℚ) * r)), 0 ≤ x := by
  intro x hx
  simp only [List.mem_map] at hx
  obtain ⟨r, hrm, rfl⟩ := hx
  have hmem : r ∈ ratios := (List.dropLast_sublist ratios).subset hrm
  exact pyInt_nonneg _ (mul_nonneg (by positivity) (hr r hmem))

theorem firsts_sum_le (n : ℕ) (ratios : List ℚ) (hr : ∀ r ∈ ratios, 0 ≤ r)
    (hs : ratios.sum = 1) (hne : ratios ≠ []) :
    (ratios.dropLast.map (fun r => pyInt ((n : ℚ) * r))).sum ≤ (n : ℤ) := by
  have hlast : 0 ≤ ratios.getLast hne := hr _ (List.getLast_mem hne)
  have hsplit : ratios.dropLast.sum + ratios.getLast hne = 1 := by
    conv_lhs => rw [show ratios.dropLast.sum + ratios.getLast hne
      = (ratios.dropLast ++ [ratios.getLast hne]).sum by simp [List.sum_append]]
    rw [List.dropLast_append_getLast hne, hs]
  have hdl : ratios.dropLast.sum ≤ 1 := by linarith
  have hcast : (((ratios.dropLast.map (fun r => pyInt ((n : ℚ) * r))).sum : ℤ) : ℚ)
      ≤ (ratios.dropLast.map (fun r => (n : ℚ) * r)).sum := by
    rw [Int.cast_list_sum, List.map_map]
    apply List.sum_le_sum
    intro r hrm
    show ((pyInt ((n : ℚ) * r) : ℤ) : ℚ) ≤ (n : ℚ) * r
    exact pyInt_le _ (mul_nonneg (by positivity)
      (hr r ((List.dropLast_sublist ratios).subset hrm)))
  have hmul : (ratios.dropLast.map (fun r => (n : ℚ) * r)).sum
      = (n : ℚ) * ratios.dropLast.sum := by
    have := List.sum_map_mul_left ratios.dropLast (fun r => r) (n : ℚ)
    simpa using this
  have hfin : (((ratios.dropLast.map (fun r => pyInt ((n : ℚ) * r))).sum : ℤ) : ℚ)
      ≤ (n : ℚ) := by
    calc (((ratios.dropLast.map (fun r => pyInt ((n : ℚ) * r))).sum : ℤ) : ℚ)
        ≤ (ratios.dropLast.map (fun r => (n : ℚ) * r)).sum := hcast
      _ = (n : ℚ) * ratios.dropLast.sum := hmul
      _ ≤ (n : ℚ) * 1 := by
          apply mul_le_mul_of_nonneg_left hdl
          positivity
      _ = (n : ℚ) := by ring
  exact_mod_cast hfin

theorem num_map_toNat (n : ℕ) (ratios : List ℚ) (hr : ∀ r ∈ ratios, 0 ≤ r)
    (hs : ratios.sum = 1) (hne : ratios ≠ []) :
    ((ratios.dropLast.map (fun r => pyInt ((n : ℚ) * r)))
      ++ [(n : ℤ) - (ratios.dropLast.map (fun r => pyInt ((n : ℚ) * r))).sum]).map
        Int.toNat = specSizes n ratios := by
  have hpt : ∀ r ∈ ratios.dropLast, (pyInt ((n : ℚ) * r)).toNat = (⌊(n : ℚ) * r⌋).toNat := by
    intro r hrm
    rw [pyInt_eq_floor _ (mul_nonneg (by positivity)
      (hr r ((List.dropLast_sublist ratios).subset hrm)))]
  have hfirst : (ratios.dropLast.map (fun r => pyInt ((n : ℚ) * r))).map Int.toNat
      = ratios.dropLast.map (fun r => (⌊(n : ℚ) * r⌋).toNat) := by
    rw [List.map_map]
    exact List.map_congr_left hpt
  have hnnf := firsts_nonneg n ratios hr
  have hle := firsts_sum_le n ratios hr hs hne
  have hsumcast := sum_toNat_of_nonneg _ hnnf
  have hS0 : 0 ≤ (ratios.dropLast.map (fun r => pyInt ((n : ℚ) * r))).sum :=
    List.sum_nonneg hnnf
  simp only [List.map_append, List.map_cons, List.map_nil, specSizes]
  rw [hfirst]
  congr 1
  rw [← hfirst]
  congr 1
  omega

theorem split_ok (ts : MLPTrainingDataS) (ratios : List ℚ) (shuffle : Mat → Mat)
    (hs : ratios.sum = 1) :
    split ts ratios shuffle = .ok
      (⟨(shuffle (List.zipWith (fun o i => o ++ i) ts.outputs ts.inputs)).map
          (List.drop (ts.outputs.headD []).length),
        (shuffle (List.zipWith (fun o i => o ++ i) ts.outputs ts.inputs)).map
          (List.take (ts.outputs.headD []).length)⟩,
       splitSubsets
         ((shuffle (List.zipWith (fun o i => o ++ i) ts.outputs ts.inputs)).map
           (List.drop (ts.outputs.headD []).length))
         ((shuffle (List.zipWith (fun o i => o ++ i) ts.outputs ts.inputs)).map
           (List.take (ts.outputs.headD []).length))
         ((ratios.map fun r => pyInt ((ts.inputs.length : ℚ) * r)).dropLast
           ++ [(ts.inputs.length : ℤ)
             - (ratios.map fun r => pyInt ((ts.inputs.length : ℚ) * r)).dropLast.sum])
         0) := by
  unfold split
  rw [if_neg (by simp [hs])]

/-- C7 (amended): for every training set of m paired rows and every list
of NONNEGATIVE ratios summing to 1.0, `split` produces one subset per
ratio, with row count `floor(m*ratio)` for every subset except the last
and the last taking the remaining rows; every one of the m rows ends up
in exactly one subset (the concatenation of the subsets' paired rows is
a permutation of the original paired rows, so no loss and no overlap,
with input/output pairing preserved); and whenever the ratios do not sum
to 1.0 it fails with `ValidationError`.  The in-place shuffle is the
oracle `shuffle`, assumed to permute rows. -/
theorem mlp_c7_split_partition (ts : MLPTrainingDataS) (ratios : List ℚ)
    (shuffle : Mat → Mat) (hr : ∀ r ∈ ratios, 0 ≤ r) (hs : ratios.sum = 1)
    (hlenio : ts.outputs.length = ts.inputs.length)
    (hshuffle : ∀ d : Mat, (shuffle d).Perm d)
    (p : MLPTrainingDataS) (ss : List MLPTrainingDataS)
    (h : split ts ratios shuffle = .ok (p, ss)) :
    ss.length = ratios.length ∧
    ss.map (fun s => s.inputs.length) = specSizes ts.inputs.length ratios ∧
    (∀ s ∈ ss, s.outputs.length = s.inputs.length) ∧
    ((ss.map rowsOf).flatten).Perm (rowsOf ts) ∧
    (∀ ratios2 : List ℚ, ratios2.sum ≠ 1 →
      split ts ratios2 shuffle = .error .validationError) := by
  have hne : ratios ≠ [] := by
    intro h0
    rw [h0] at hs
    simp at hs
  rw [split_ok ts ratios shuffle hs] at h
  simp only [Except.ok.injEq, Prod.mk.injEq] at h
  obtain ⟨hp, hss⟩ := h
  subst hss
  have hRtslen : (List.zipWith (fun o i : List ℚ => o ++ i) ts.outputs ts.inputs).length
      = ts.inputs.length := by
    rw [List.length_zipWith, hlenio]
    simp
  have hperm : (shuffle (List.zipWith (fun o i => o ++ i) ts.outputs ts.inputs)).Perm
      (List.zipWith (fun o i => o ++ i) ts.outputs ts.inputs) := hshuffle _
  have hdlen : (shuffle (List.zipWith (fun o i => o ++ i) ts.outputs ts.inputs)).length
      = ts.inputs.length := by
    rw [hperm.length_eq, hRtslen]
  rw [dropLast_map] at *
  have hnnf := firsts_nonneg ts.inputs.length ratios hr
  have hfle := firsts_sum_le ts.inputs.length ratios hr hs hne
  have hnn : ∀ x ∈ (ratios.dropLast.map (fun r => pyInt ((ts.inputs.length : ℚ) * r)))
      ++ [(ts.inputs.length : ℤ)
        - (ratios.dropLast.map (fun r => pyInt ((ts.inputs.length : ℚ) * r))).sum],
      0 ≤ x := by
    intro x hx
    rcases List.mem_append.mp hx with hx1 | hx2
    · exact hnnf x hx1
    · simp only [List.mem_singleton] at hx2
      omega
  have hsumnum : ((ratios.dropLast.map (fun r => pyInt ((ts.inputs.length : ℚ) * r)))
      ++ [(ts.inputs.length : ℤ)
        - (ratios.dropLast.map (fun r => pyInt ((ts.inputs.length : ℚ) * r))).sum]).sum
      = (ts.inputs.length : ℤ) := by
    rw [List.sum_append]
    simp
  have hI2len : ((shuffle (List.zipWith (fun o i => o ++ i) ts.outputs ts.inputs)).map
      (List.drop (ts.outputs.headD []).length)).length = ts.inputs.length := by
    rw [List.length_map, hdlen]
  have hO2len : ((shuffle (List.zipWith (fun o i => o ++ i) ts.outputs ts.inputs)).map
      (List.take (ts.outputs.headD []).length)).length = ts.inputs.length := by
    rw [List.length_map, hdlen]
  refine ⟨?_, ?_, ?_, ?_, ?_⟩
  · rw [splitSubsets_length]
    rw [List.length_append, List.length_map, List.length_dropLast]
    have := List.length_pos.mpr hne
    simp
    omega
  · rw [splitSubsets_inputs_sizes _ _ _ 0 le_rfl hnn (by rw [hsumnum, hI2len]; omega)]
    exact num_map_toNat ts.inputs.length ratios hr hs hne
  · have hin := splitSubsets_inputs_sizes
      ((shuffle (List.zipWith (fun o i => o ++ i) ts.outputs ts.inputs)).map
        (List.drop (ts.outputs.headD []).length))
      ((shuffle (List.zipWith (fun o i => o ++ i) ts.outputs ts.inputs)).map
        (List.take (ts.outputs.headD []).length))
      _ 0 le_rfl hnn (by rw [hsumnum, hI2len]; omega)
    have hout := splitSubsets_outputs_sizes
      ((shuffle (List.zipWith (fun o i => o ++ i) ts.outputs ts.inputs)).map
        (List.drop (ts.outputs.headD []).length))
      ((shuffle (List.zipWith (fun o i => o ++ i) ts.outputs ts.inputs)).map
        (List.take (ts.outputs.headD []).length))
      _ 0 le_rfl hnn (by rw [hsumnum, hO2len]; omega)
    exact List.map_eq_map_iff.mp (hout.trans hin.symm)
  · have hflat := splitSubsets_rows_flatten
      ((shuffle (List.zipWith (fun o i => o ++ i) ts.outputs ts.inputs)).map
        (List.drop (ts.outputs.headD []).length))
      ((shuffle (List.zipWith (fun o i => o ++ i) ts.outputs ts.inputs)).map
        (List.take (ts.outputs.headD []).length))
      (by rw [hI2len, hO2len])
      _ 0 le_rfl hnn (by rw [hsumnum, hI2len]; omega)
    rw [hflat]
    have hrec : List.zipWith (fun o i : List ℚ => o ++ i)
        ((shuffle (List.zipWith (fun o i => o ++ i) ts.outputs ts.inputs)).map
          (List.take (ts.outputs.headD []).length))
        ((shuffle (List.zipWith (fun o i => o ++ i) ts.outputs ts.inputs)).map
          (List.drop (ts.outputs.headD []).length))
        = shuffle (List.zipWith (fun o i => o ++ i) ts.outputs ts.inputs) := by
      rw [List.zipWith_map]
      rw [List.zipWith_same]
      have : (fun a : List ℚ => a.take (ts.outputs.headD []).length
          ++ a.drop (ts.outputs.headD []).length) = fun a => a := by
        funext a
        exact List.take_append_drop _ a
      rw [this]
      simp
    rw [hrec]
    simpa using hperm
  · intro ratios2 h2
    unfold split
    rw [if_pos h2]

/-- C7 counterexample: the claim as stated quantifies over every ratio
list summing to 1.0, but on `ratios = [1/2, -1/2, 1]` (sum 1.0) and 8
rows the code produces subsets of sizes 4, 0 and 8: rows 1-4 land in
both the first and the third subset (the paired row `[10, 1]` is a
member of both), so the m rows are not assigned to exactly one subset,
and the middle subset has 0 rows rather than `floor(8 * (-1/2)) = -4`. -/
theorem mlp_c7_counterexample :
    split ts8 [1/2, -1/2, 1] id = .ok (⟨ts8.inputs, ts8.outputs⟩,
      [⟨[[1], [2], [3], [4]], [[10], [20], [30], [40]]⟩,
       ⟨[], []⟩,
       ⟨ts8.inputs, ts8.outputs⟩]) ∧
    [10, 1] ∈ rowsOf ⟨[[1], [2], [3], [4]], [[10], [20], [30], [40]]⟩ ∧
    [10, 1] ∈ rowsOf (⟨ts8.inputs, ts8.outputs⟩ : MLPTrainingDataS) ∧
    (4 + 0 + ts8.inputs.length ≠ ts8.inputs.length) := by
  refine ⟨?_, ?_, ?_, by decide⟩
  · norm_num [split, pyInt, pySlice, sliceIdx, splitSubsets, ts8]
    exact ⟨rfl, rfl⟩
  · show [10, 1] ∈ [[10, 1], [20, 2], [30, 3], [40, 4]]
    simp
  · show [10, 1] ∈ List.zipWith (fun o i => o ++ i) ts8.outputs ts8.inputs
    simp [ts8]

/-- C7 witness: the amended partition statement on a concrete split of 8
rows into ratios 3/4 and 1/4. -/
theorem mlp_c7_witness :
    (∀ r ∈ ([3/4, 1/4] : List ℚ), 0 ≤ r) ∧ ([3/4, 1/4] : List ℚ).sum = 1 ∧
    ([⟨[[1], [2], [3], [4], [5], [6]], [[10], [20], [30], [40], [50], [60]]⟩,
      ⟨[[7], [8]], [[70], [80]]⟩] : List MLPTrainingDataS).length = ([3/4, 1/4] : List ℚ).length ∧
    ([⟨[[1], [2], [3], [4], [5], [6]], [[10], [20], [30], [40], [50], [60]]⟩,
      ⟨[[7], [8]], [[70], [80]]⟩] : List MLPTrainingDataS).map (fun s => s.inputs.length)
      = specSizes ts8.inputs.length [3/4, 1/4] ∧
    (([⟨[[1], [2], [3], [4], [5], [6]], [[10], [20], [30], [40], [50], [60]]⟩,
      ⟨[[7], [8]], [[70], [80]]⟩] : List MLPTrainingDataS).map rowsOf).flatten.Perm
      (rowsOf ts8) := by
  have hok : split ts8 [3/4, 1/4] id = .ok (⟨ts8.inputs, ts8.outputs⟩,
      [⟨[[1], [2], [3], [4], [5], [6]], [[10], [20], [30], [40], [50], [60]]⟩,
       ⟨[[7], [8]], [[70], [80]]⟩]) := by
    norm_num [split, pyInt, pySlice, sliceIdx, splitSubsets, ts8]
    exact ⟨⟨rfl, rfl⟩, rfl, rfl⟩
  have hr : ∀ r ∈ ([3/4, 1/4] : List ℚ), 0 ≤ r := by
    intro r hrm
    simp only [List.mem_cons, List.not_mem_nil, or_false] at hrm
    rcases hrm with h | h <;> rw [h] <;> norm_num
  have hs : ([3/4, 1/4] : List ℚ).sum = 1 := by norm_num
  have hmain := mlp_c7_split_partition ts8 [3/4, 1/4] id hr hs (by decide)
    (fun d => List.Perm.refl d) _ _ hok
  exact ⟨hr, hs, hmain.1, hmain.2.1, hmain.2.2.2.1⟩

end MLP
